import Mathlib

/-!
Verification of the market-structure analysis pipeline of
`market_structure.py`: inside-bar filtering (`filter_inside_bars`),
color-reversal pivot detection (`identify_pivots`), swing labeling
(`_add_labels`) and break-of-structure detection (`find_bos`).

Prices are modelled as integers (the source only compares them and takes
minima/maxima, so only the order structure matters).  Python/pandas
positional indexing is modelled faithfully: a single `iloc[k]` with
negative `k` counts from the end of the frame and raises `IndexError`
past `-len`; a slice `iloc[a:b]` clamps, and `idxmin`/`idxmax` raise on
an empty selection.  Fallible computations therefore live in
`Except Unit`.
-/

/-- One OHLC bar: the `Open`, `High`, `Low`, `Close` columns of a row
(`op` stands for the `Open` field, which is a reserved word in Lean). -/
structure Bar where
  op : Int
  high : Int
  low : Int
  close : Int
deriving DecidableEq, Repr

/-- The inside-bar test of `filter_inside_bars`:
`curr_high <= last_valid_high and curr_low >= last_valid_low`. -/
def insideOf (lastH lastL : Int) (b : Bar) : Bool :=
  decide (b.high ≤ lastH) && decide (b.low ≥ lastL)

/-- The loop of `filter_inside_bars` over the bars after the first one,
carrying `last_valid_high`/`last_valid_low`.  Returns the valid bars kept
and the `is_inside` flag of each processed bar. -/
def filterGo (lastH lastL : Int) : List Bar → List Bar × List Bool
  | [] => ([], [])
  | b :: rest =>
    if insideOf lastH lastL b then
      let r := filterGo lastH lastL rest
      (r.1, true :: r.2)
    else
      let r := filterGo b.high b.low rest
      (b :: r.1, false :: r.2)

/-- Embedding of `MarketStructureAnalyzer.filter_inside_bars`: the first bar is always
kept, every later bar is compared against the last accepted bar.  Returns
`(df_valid, is_inside flags)`. -/
def filter_inside_bars : List Bar → List Bar × List Bool
  | [] => ([], [])
  | b :: rest =>
    let r := filterGo b.high b.low rest
    (b :: r.1, false :: r.2)

/-- Column `is_green`: `Close > Open`. -/
def isGreen (b : Bar) : Bool := decide (b.close > b.op)

/-- Column `is_red`: `Close < Open`. -/
def isRed (b : Bar) : Bool := decide (b.close < b.op)

/-- The trend state of `identify_pivots` (`None`, `'bull'`, `'bear'`). -/
inductive Trend
  | nt
  | bull
  | bear
deriving DecidableEq, Repr

/-- One write into the `pivot_high`/`pivot_low` columns:
`df.at[idx, "pivot_high"] = value` (with `isHigh = true`) or
`df.at[idx, "pivot_low"] = value` (with `isHigh = false`). -/
structure Piv where
  idx : Nat
  isHigh : Bool
  value : Int
deriving DecidableEq, Repr

/-- Pandas `Series.iloc[k]` for a single integer position: a negative
position counts from the end, and a position outside `[-len, len)` is an
`IndexError` (here `none`). -/
def ilocGet (bars : List Bar) (k : Int) : Option Bar :=
  if 0 ≤ k then bars[k.toNat]?
  else if 0 ≤ k + bars.length then bars[(k + bars.length).toNat]?
  else none

/-- The generator `all(df["is_green"].iloc[i - j] for j in range(min_candles))`
(and its `is_red` twin): positions `k, k-1, ...` are read lazily, so a
`False` short-circuits before any later out-of-range read, while an
out-of-range read raises (`Except.error`). -/
def runCheck (color : Bar → Bool) (bars : List Bar) : Int → Nat → Except Unit Bool
  | _, 0 => .ok true
  | k, j + 1 =>
    match ilocGet bars k with
    | none => .error ()
    | some b => if color b then runCheck color bars (k - 1) j else .ok false

/-- The start position of the Python slice `iloc[a : stop]`: a negative
`a` counts from the end and clamps at `0`. -/
def pySliceStart (n : Nat) (a : Int) : Nat :=
  if 0 ≤ a then min a.toNat n else (a + n).toNat

/-- The rows of `df.iloc[s : stop]` for a nonnegative start position,
paired with their positions. -/
def windowPairsN (bars : List Bar) (s stop : Nat) : List (Nat × Bar) :=
  (List.range' s (stop - s)).filterMap fun p => (bars[p]?).map fun b => (p, b)

/-- The rows of `df.iloc[a : stop]` (`a` may be negative, Python slice
semantics), paired with their positions. -/
def windowPairs (bars : List Bar) (a : Int) (stop : Nat) : List (Nat × Bar) :=
  windowPairsN bars (pySliceStart bars.length a) stop

/-- Pandas `idxmin` over a window: the first element attaining the
minimum of `f`, `none` on an empty window (a `ValueError` in pandas). -/
def argminFirst (f : α → Int) : List α → Option α
  | [] => none
  | x :: xs =>
    match argminFirst f xs with
    | none => some x
    | some y => if f x ≤ f y then some x else some y

/-- Pandas `idxmax` over a window: the first element attaining the
maximum of `f`, `none` on an empty window. -/
def argmaxFirst (f : α → Int) : List α → Option α
  | [] => none
  | x :: xs =>
    match argmaxFirst f xs with
    | none => some x
    | some y => if f x ≥ f y then some x else some y

/-- The loop of `identify_pivots` (`for i in range(1, len(df))`), with
state `trend` and `current_trend_start_idx` (an Python `int`, so possibly
negative), accumulating the writes into the pivot columns.  The `and` in
`trend != "bull" and all(...)` short-circuits, so the run check is not
evaluated (and cannot raise) when the trend already matches. -/
def pivGo (bars : List Bar) (mc : Nat) :
    Nat → Nat → Trend → Int → List Piv → Except Unit (List Piv)
  | 0, _, _, _, log => .ok log
  | fuel + 1, i, trend, rs, log =>
    if i < bars.length then
      match (if trend = .bull then Except.ok false else runCheck isGreen bars i mc) with
      | .error e => .error e
      | .ok true =>
        if trend = .bear then
          match argminFirst (fun pb => pb.2.low) (windowPairs bars rs (i + 1)) with
          | none => .error ()
          | some pb =>
            pivGo bars mc fuel (i + 1) .bull ((i : Int) - ((mc : Int) - 1))
              (log ++ [⟨pb.1, false, pb.2.low⟩])
        else
          pivGo bars mc fuel (i + 1) .bull ((i : Int) - ((mc : Int) - 1)) log
      | .ok false =>
        match (if trend = .bear then Except.ok false else runCheck isRed bars i mc) with
        | .error e => .error e
        | .ok true =>
          if trend = .bull then
            match argmaxFirst (fun pb => pb.2.high) (windowPairs bars rs (i + 1)) with
            | none => .error ()
            | some pb =>
              pivGo bars mc fuel (i + 1) .bear ((i : Int) - ((mc : Int) - 1))
                (log ++ [⟨pb.1, true, pb.2.high⟩])
          else
            pivGo bars mc fuel (i + 1) .bear ((i : Int) - ((mc : Int) - 1)) log
        | .ok false => pivGo bars mc fuel (i + 1) trend rs log
    else .ok log

/-- Embedding of `MarketStructureAnalyzer.identify_pivots(min_candles = mc)` run on an
(already filtered) valid bar series: the sequence of pivot-column writes,
or an error when the pandas calls raise. -/
def identify_pivots (bars : List Bar) (mc : Nat) : Except Unit (List Piv) :=
  pivGo bars mc bars.length 1 .nt 0 []

/-- The pivot writes of the pipeline, with an error collapsed to the
empty list (used to talk about downstream stages on succeeding runs). -/
def pivLog (bars : List Bar) (mc : Nat) : List Piv :=
  match identify_pivots bars mc with
  | .ok log => log
  | .error _ => []

/-- The final content of the `pivot_high` column (`isH = true`) or
`pivot_low` column (`isH = false`) at row `i`: the last write wins. -/
def pivView (log : List Piv) (isH : Bool) (i : Nat) : Option Int :=
  log.foldl (fun acc p => if p.isHigh = isH ∧ p.idx = i then some p.value else acc) none

/-- Modelled from the spec (§4.2): whether the last `mc` bars inclusive
of `i` are all of the given color, with plain in-range indexing. -/
def specRunAll (color : Bar → Bool) (bars : List Bar) (i mc : Nat) : Bool :=
  (List.range mc).all fun j =>
    match bars[i - j]? with
    | some b => color b
    | none => false

/-- The spec-side pivot detector loop, following §4.2 word by word: the
transition rule is evaluated at each bar `i` starting at the first index
where `min_run` bars are available, the checked window is the last
`min_run` bars themselves, and `run_start_index` is a plain (nonnegative)
index.  Total: no pandas indexing is involved. -/
def specGo (bars : List Bar) (mc : Nat) :
    Nat → Nat → Trend → Nat → List Piv → List Piv
  | 0, _, _, _, log => log
  | fuel + 1, i, trend, rs, log =>
    if i < bars.length then
      if trend ≠ .bull ∧ specRunAll isGreen bars i mc then
        let log' :=
          if trend = .bear then
            match argminFirst (fun pb => pb.2.low) (windowPairsN bars rs (i + 1)) with
            | none => log
            | some pb => log ++ [⟨pb.1, false, pb.2.low⟩]
          else log
        specGo bars mc fuel (i + 1) .bull (i - (mc - 1)) log'
      else if trend ≠ .bear ∧ specRunAll isRed bars i mc then
        let log' :=
          if trend = .bull then
            match argmaxFirst (fun pb => pb.2.high) (windowPairsN bars rs (i + 1)) with
            | none => log
            | some pb => log ++ [⟨pb.1, true, pb.2.high⟩]
          else log
        specGo bars mc fuel (i + 1) .bear (i - (mc - 1)) log'
      else specGo bars mc fuel (i + 1) trend rs log
    else log

/-- Modelled from the spec (§4.2): `identify(valid, min_run)` evaluating
the transition rule from the first index where `min_run` bars are
available. -/
def specIdentifyPivots (bars : List Bar) (mc : Nat) : List Piv :=
  specGo bars mc bars.length (mc - 1) .nt 0 []

/-- A green demo bar. -/
def gbar : Bar := ⟨1, 3, 0, 2⟩

/-- A red demo bar. -/
def rbar : Bar := ⟨2, 3, 0, 1⟩

/-- C9: filtering an empty bar series yields an empty valid series and no
inside flags, without an error. -/
theorem c9_filter_empty : filter_inside_bars [] = ([], []) := rfl

/-- C8: on two green bars with `min_candles = 5` (fewer bars than
`min_run`) the source's run check walks to pandas position `-3` on a
length-2 frame and raises `IndexError` instead of returning an empty
pivot set; the spec-side detector returns the empty set there. -/
theorem c8_insufficient_data_error :
    identify_pivots [gbar, gbar] 5 = .error () ∧
      specIdentifyPivots [gbar, gbar] 5 = [] ∧
      ([gbar, gbar] : List Bar).length < 5 := by
  refine ⟨rfl, rfl, by decide⟩

/-- The 3-bar series green, red, red used for the C1 divergence. -/
def c1demo : List Bar := [⟨1, 4, 0, 2⟩, ⟨2, 3, 0, 1⟩, ⟨1, 2, -1, 0⟩]

/-- The 6-bar series green, green, red, red, red, green used for the C1
wraparound divergence with `min_candles = 3`. -/
def c1wrapdemo : List Bar := [gbar, gbar, rbar, rbar, rbar, gbar]

/-- C1: the code evaluates the transition rule only from index 1 and with
Python negative-position wraparound, not from the first index where
`min_run` bars are available.  With `min_run = 1` it skips bar 0, so the
green-then-red series records no pivot High while the spec-side detector
records High 4 at index 0; with `min_run = 3` the run check at `i = 1`
wraps around to the last bar, fires a spurious bullish reversal with
`run_start_index = -1`, and the later bearish reversal then scans an
empty slice and raises, while the spec-side detector returns no pivots. -/
theorem c1_loop_start_bug :
    identify_pivots c1demo 1 = .ok [] ∧
      specIdentifyPivots c1demo 1 = [⟨0, true, 4⟩] ∧
      identify_pivots c1wrapdemo 3 = .error () ∧
      specIdentifyPivots c1wrapdemo 3 = [] := by
  refine ⟨rfl, rfl, rfl, rfl⟩

/-- One BOS event of `find_bos`: `start_date`/`end_date` are row
positions in the valid series, `color == "green"` is `isBull = true`, and
`quality == "good"` is `good = true`. -/
structure BosEv where
  startIdx : Nat
  endIdx : Nat
  level : Int
  isBull : Bool
  good : Bool
deriving DecidableEq, Repr

/-- The `elif last_pl_val and curr_close < last_pl_val` branch of
`find_bos` at row `i`: Python truthiness makes a level of `0.0` behave as
unset.  Returns the registers after the bar and the emitted event, if
any. -/
def bearStep (bars : List Bar) (i : Nat) (bar : Bar) (ph pl : Option (Nat × Int)) :
    Option (Nat × Int) × Option (Nat × Int) × Option BosEv :=
  match pl with
  | some kv =>
    if kv.2 ≠ 0 ∧ bar.close < kv.2 then
      (ph, none, some ⟨kv.1, i, kv.2, false,
        match bars[i + 1]? with
        | some nb => decide (nb.close < kv.2)
        | none => false⟩)
    else (ph, pl, none)
  | none => (ph, pl, none)

/-- The break checks of `find_bos` at row `i`, after the registers have
been updated from the pivot columns: the bullish check
`if last_ph_val and curr_close > last_ph_val` runs first and the bearish
check only in its `elif`. -/
def bosStep (bars : List Bar) (i : Nat) (bar : Bar) (ph pl : Option (Nat × Int)) :
    Option (Nat × Int) × Option (Nat × Int) × Option BosEv :=
  match ph with
  | some kv =>
    if kv.2 ≠ 0 ∧ bar.close > kv.2 then
      (none, pl, some ⟨kv.1, i, kv.2, true,
        match bars[i + 1]? with
        | some nb => decide (nb.close > kv.2)
        | none => false⟩)
    else bearStep bars i bar ph pl
  | none => bearStep bars i bar ph pl

/-- The loop of `find_bos` (`for i in range(len(df))`): the registers
`(last_ph_idx, last_ph_val)` and `(last_pl_idx, last_pl_val)` are first
updated from the pivot columns of the current row, then the break checks
run. -/
def bosGo (bars : List Bar) (pivH pivL : Nat → Option Int) :
    Nat → Nat → Option (Nat × Int) → Option (Nat × Int) → List BosEv → List BosEv
  | 0, _, _, _, acc => acc
  | fuel + 1, i, ph0, pl0, acc =>
    match bars[i]? with
    | none => acc
    | some bar =>
      let s := bosStep bars i bar
        (match pivH i with | some v => some (i, v) | none => ph0)
        (match pivL i with | some v => some (i, v) | none => pl0)
      bosGo bars pivH pivL fuel (i + 1) s.1 s.2.1 (acc ++ s.2.2.toList)

/-- Embedding of `MarketStructureAnalyzer.find_bos` on a valid bar series whose
`pivot_high`/`pivot_low` columns are given by `pivH`/`pivL`. -/
def find_bos (bars : List Bar) (pivH pivL : Nat → Option Int) : List BosEv :=
  bosGo bars pivH pivL bars.length 0 none none []

/-- The BOS events of the full pipeline on an already-valid series. -/
def pipelineBos (bars : List Bar) (mc : Nat) : List BosEv :=
  find_bos bars (pivView (pivLog bars mc) true) (pivView (pivLog bars mc) false)

/-- The label tails of `_add_labels`: each value is compared with the one
before it (`up` for strictly greater, `dn` otherwise). -/
def labGo (up dn : String) : Int → List Int → List String
  | _, [] => []
  | prev, v :: vs => (if v > prev then up else dn) :: labGo up dn v vs

/-- The `labels` list built for the pivot Highs: `H` first, then
`HH`/`LH` by comparison with the previous High. -/
def highLabels : List Int → List String
  | [] => []
  | v :: vs => "H" :: labGo "HH" "LH" v vs

/-- The `labels` list built for the pivot Lows: `L` first, then
`HL`/`LL` by comparison with the previous Low. -/
def lowLabels : List Int → List String
  | [] => []
  | v :: vs => "L" :: labGo "HL" "LL" v vs

/-- Row selection `df[df["pivot_high"].notna()]` (for `isH = true`) or the Lows row
selection (for `isH = false`): the rows holding a pivot of that kind, in
chronological row order, as `(position, value)` pairs. -/
def pivPairs (n : Nat) (log : List Piv) (isH : Bool) : List (Nat × Int) :=
  (List.range n).filterMap fun i => (pivView log isH i).map fun v => (i, v)

/-- A sequence of writes `df.at[idx, "label"] = lbl`, later writes
overwriting earlier ones. -/
def writeAll (a : List String) (ps : List (Nat × String)) : List String :=
  ps.foldl (fun acc p => acc.set p.1 p.2) a

/-- The label writes of one `_add_labels` pass: the selected rows zipped
with their computed labels. -/
def labelWrites (ps : List (Nat × Int)) (labs : List Int → List String) :
    List (Nat × String) :=
  (ps.map Prod.fst).zip (labs (ps.map Prod.snd))

/-- The final `label` column produced by `_add_labels`: the High labels
are written first, the Low labels afterwards (so a Low write overwrites a
High write landing on the same row). -/
def labelArr (n : Nat) (log : List Piv) : List String :=
  writeAll (writeAll (List.replicate n "") (labelWrites (pivPairs n log true) highLabels))
    (labelWrites (pivPairs n log false) lowLabels)

/-- The labeling property claimed for the output: every pivot High's row
shows its `H`/`HH`/`LH` label and every pivot Low's row shows its
`L`/`HL`/`LL` label. -/
def labelsSpecOK (n : Nat) (log : List Piv) : Bool :=
  ((pivPairs n log true).map Prod.fst).map (fun i => (labelArr n log).getD i "")
      == highLabels ((pivPairs n log true).map Prod.snd)
    && ((pivPairs n log false).map Prod.fst).map (fun i => (labelArr n log).getD i "")
      == lowLabels ((pivPairs n log false).map Prod.snd)

/-- The returned pivot set read off the pivot columns in chronological
(row) order; a row carrying both kinds lists its High first. -/
def chronoPivots (bars : List Bar) (mc : Nat) : List Piv :=
  (List.range bars.length).foldr
    (fun i acc =>
      (match pivView (pivLog bars mc) true i with
        | some v => [⟨i, true, v⟩]
        | none => []) ++
      (match pivView (pivLog bars mc) false i with
        | some v => [⟨i, false, v⟩]
        | none => []) ++ acc) []

/-- Whether consecutive pivots of a list alternate in kind. -/
def alternatingB : List Piv → Bool
  | [] => true
  | [_] => true
  | p :: q :: rest => (p.isHigh != q.isHigh) && alternatingB (q :: rest)

/-- The 6-bar negative-price series for C2: bars 0-1 green, 2-3 red,
4-5 green; the bull run 0-3 tops out at `High = 0` on bar 0, and bar 4
closes at `1 > 0`. -/
def demoC2 : List Bar :=
  [⟨-5, 0, -8, -4⟩, ⟨-4, -1, -9, -3⟩, ⟨-3, -1, -10, -4⟩,
   ⟨-4, -2, -11, -5⟩, ⟨-1, 2, -3, 1⟩, ⟨1, 3, 0, 2⟩]

/-- C2: on `demoC2` with `min_candles = 2` the pipeline records the pivot
High `0` at row 0, the series is its own valid series, and bar 4 closes
strictly above that level, yet `find_bos` emits no event at all: the
Python truthiness test `if last_ph_val and ...` treats the set level
`0.0` as unset. -/
theorem c2_zero_level_missed :
    identify_pivots demoC2 2 = .ok [⟨0, true, 0⟩, ⟨3, false, -11⟩] ∧
      filter_inside_bars demoC2 = (demoC2, [false, false, false, false, false, false]) ∧
      (demoC2[4]?).map Bar.close = some 1 ∧
      pipelineBos demoC2 2 = [] := by
  refine ⟨rfl, rfl, rfl, rfl⟩

/-- The 8-bar series for C5: bars 0-1 red, 2-3 green, 4-5 red, 6-7
green; the closed-out windows place the pivots at rows 0 (Low), 5 (High)
and 4 (Low). -/
def demo8 : List Bar :=
  [⟨10, 11, 3, 9⟩, ⟨9, 12, 4, 8⟩, ⟨8, 13, 5, 9⟩, ⟨9, 14, 6, 10⟩,
   ⟨10, 15, 2, 9⟩, ⟨9, 16, 4, 8⟩, ⟨8, 17, 5, 9⟩, ⟨9, 18, 6, 10⟩]

/-- C5 counterexample: on `demo8` (its own valid series) with the default
`min_candles = 2`, the pivot set in chronological order is Low at row 0,
Low at row 4, High at row 5 — two consecutive pivot Lows, so the
chronological alternation claimed by the spec fails. -/
theorem c5_chrono_counterexample :
    filter_inside_bars demo8 = (demo8, List.replicate 8 false) ∧
      chronoPivots demo8 2 =
        [⟨0, false, 3⟩, ⟨4, false, 2⟩, ⟨5, true, 16⟩] ∧
      alternatingB (chronoPivots demo8 2) = false := by
  refine ⟨rfl, rfl, rfl⟩

/-- The 8-bar series for C6: as `demo8`, but bar 5 carries both the
maximum High of the closed bull window 2-5 and the minimum Low of the
closed bear window 4-7, so a pivot High and a pivot Low land on the same
row. -/
def demoC6 : List Bar :=
  [⟨10, 11, 3, 9⟩, ⟨9, 12, 4, 8⟩, ⟨8, 13, 5, 9⟩, ⟨9, 14, 6, 10⟩,
   ⟨10, 15, 5, 9⟩, ⟨9, 30, 0, 8⟩, ⟨8, 31, 2, 9⟩, ⟨9, 32, 3, 10⟩]

/-- C6 counterexample: on `demoC6` (its own valid series) with
`min_candles = 2` the only pivot High (row 5, value 30) shares its row
with a pivot Low; the Low labels are written after the High labels into
the single `label` column, so that row reads `LL` instead of the claimed
`H`, and the labeling property fails. -/
theorem c6_label_counterexample :
    filter_inside_bars demoC6 = (demoC6, List.replicate 8 false) ∧
      pivLog demoC6 2 = [⟨0, false, 3⟩, ⟨5, true, 30⟩, ⟨5, false, 0⟩] ∧
      (pivPairs 8 (pivLog demoC6 2) true).map Prod.fst = [5] ∧
      (labelArr 8 (pivLog demoC6 2)).getD 5 "" = "LL" ∧
      labelsSpecOK 8 (pivLog demoC6 2) = false := by
  refine ⟨rfl, rfl, rfl, rfl, rfl⟩

/-- The `(last_valid_high, last_valid_low)` pair in effect at step `i` of
the filter loop: the extremes of the last bar before position `i` whose
flag is `false`, or the default `d` when every earlier bar was flagged. -/
def refPair (d : Int × Int) : List Bar → List Bool → Nat → Int × Int
  | _, _, 0 => d
  | [], _, _ + 1 => d
  | _ :: _, [], _ + 1 => d
  | b :: bs, fl :: fs, i + 1 => refPair (if fl then d else (b.high, b.low)) bs fs i

/-- Each flag produced by the filter loop is exactly the inside test
against the last accepted bar (or the seed extremes when none was
accepted yet). -/
theorem filterGo_flag_char (rest : List Bar) : ∀ (lH lL : Int) (i : Nat) (bi : Bar),
    rest[i]? = some bi →
    (filterGo lH lL rest).2[i]? =
      some (insideOf (refPair (lH, lL) rest (filterGo lH lL rest).2 i).1
                     (refPair (lH, lL) rest (filterGo lH lL rest).2 i).2 bi) := by
  induction rest with
  | nil => intro lH lL i bi h; simp at h
  | cons b rs ih =>
    intro lH lL i bi h
    by_cases hin : insideOf lH lL b = true
    · simp only [filterGo, hin, if_true]
      cases i with
      | zero =>
        simp only [List.getElem?_cons_zero, Option.some.injEq] at h
        subst h
        simp [refPair, hin]
      | succ i =>
        simp only [List.getElem?_cons_succ] at h ⊢
        simpa [refPair] using ih lH lL i bi h
    · simp only [filterGo, hin, if_false, Bool.false_eq_true]
      cases i with
      | zero =>
        simp only [List.getElem?_cons_zero, Option.some.injEq] at h
        subst h
        simp only [refPair]
        simp [hin]
      | succ i =>
        simp only [List.getElem?_cons_succ] at h ⊢
        simpa [refPair] using ih b.high b.low i bi h

/-- C4: on a nonempty series the filter always accepts the first bar
(flag `false`, bar kept), and a later bar is flagged inside exactly when
its high/low fall within the extremes of the last accepted bar — the
reference advancing only on accepted bars, as expressed by `refPair`. -/
theorem c4_filter_reference_is_last_accepted (b0 : Bar) (rest : List Bar)
    (i : Nat) (bi : Bar) (h : rest[i]? = some bi) :
    (filter_inside_bars (b0 :: rest)).1[0]? = some b0 ∧
    (filter_inside_bars (b0 :: rest)).2[0]? = some false ∧
    (filter_inside_bars (b0 :: rest)).2[i + 1]? =
      some (insideOf
        (refPair (b0.high, b0.low) rest (filterGo b0.high b0.low rest).2 i).1
        (refPair (b0.high, b0.low) rest (filterGo b0.high b0.low rest).2 i).2 bi) := by
  refine ⟨by simp [filter_inside_bars], by simp [filter_inside_bars], ?_⟩
  simpa [filter_inside_bars] using filterGo_flag_char rest b0.high b0.low i bi h

/-- Witness for C4 on a concrete series: the second bar of
`[⟨0, 10, 0, 10⟩, ⟨1, 9, 2, 3⟩]` is flagged inside its accepted
predecessor. -/
theorem c4_filter_reference_witness :
    ((filter_inside_bars [⟨0, 10, 0, 10⟩, ⟨1, 9, 2, 3⟩]).1[0]? = some ⟨0, 10, 0, 10⟩ ∧
      (filter_inside_bars [⟨0, 10, 0, 10⟩, ⟨1, 9, 2, 3⟩]).2[0]? = some false ∧
      (filter_inside_bars [⟨0, 10, 0, 10⟩, ⟨1, 9, 2, 3⟩]).2[1]? =
        some (insideOf
          (refPair (10, 0) [⟨1, 9, 2, 3⟩] (filterGo 10 0 [⟨1, 9, 2, 3⟩]).2 0).1
          (refPair (10, 0) [⟨1, 9, 2, 3⟩] (filterGo 10 0 [⟨1, 9, 2, 3⟩]).2 0).2
          ⟨1, 9, 2, 3⟩)) :=
  c4_filter_reference_is_last_accepted ⟨0, 10, 0, 10⟩ [⟨1, 9, 2, 3⟩] 0 ⟨1, 9, 2, 3⟩ rfl

/-- The chain property of an accepted series: no bar is inside its
predecessor (the first one being compared against the seed extremes). -/
def chainCond (lH lL : Int) : List Bar → Prop
  | [] => True
  | b :: bs => insideOf lH lL b = false ∧ chainCond b.high b.low bs

/-- The valid series produced by the filter loop satisfies the chain
property for its seed extremes. -/
theorem filterGo_chainCond (rest : List Bar) :
    ∀ lH lL : Int, chainCond lH lL (filterGo lH lL rest).1 := by
  induction rest with
  | nil => intro lH lL; simp [filterGo, chainCond]
  | cons b rs ih =>
    intro lH lL
    by_cases hin : insideOf lH lL b = true
    · simpa only [filterGo, hin, if_true] using ih lH lL
    · simp only [filterGo, hin, if_false, Bool.false_eq_true]
      exact ⟨by simpa using hin, ih b.high b.low⟩

/-- On a series satisfying the chain property, the filter loop keeps
every bar and flags none. -/
theorem filterGo_of_chainCond (v : List Bar) :
    ∀ lH lL : Int, chainCond lH lL v →
      filterGo lH lL v = (v, List.replicate v.length false) := by
  induction v with
  | nil => intro lH lL _; rfl
  | cons b bs ih =>
    intro lH lL hc
    rcases hc with ⟨hb, hrest⟩
    simp only [filterGo, hb, Bool.false_eq_true, if_false, ih b.high b.low hrest,
      List.length_cons, List.replicate_succ]

/-- The element selected by `argminFirst` comes from the list. -/
theorem argminFirst_mem (f : α → Int) : ∀ (l : List α) (x : α),
    argminFirst f l = some x → x ∈ l := by
  intro l
  induction l with
  | nil => intro x h; simp [argminFirst] at h
  | cons a l ih =>
    intro x h
    rcases hrec : argminFirst f l with _ | y
    · simp only [argminFirst, hrec, Option.some.injEq] at h
      subst h
      exact List.mem_cons_self a l
    · simp only [argminFirst, hrec] at h
      split at h
      · simp only [Option.some.injEq] at h
        subst h
        exact List.mem_cons_self a l
      · simp only [Option.some.injEq] at h
        subst h
        exact List.mem_cons_of_mem a (ih y hrec)

/-- The element selected by `argmaxFirst` comes from the list. -/
theorem argmaxFirst_mem (f : α → Int) : ∀ (l : List α) (x : α),
    argmaxFirst f l = some x → x ∈ l := by
  intro l
  induction l with
  | nil => intro x h; simp [argmaxFirst] at h
  | cons a l ih =>
    intro x h
    rcases hrec : argmaxFirst f l with _ | y
    · simp only [argmaxFirst, hrec, Option.some.injEq] at h
      subst h
      exact List.mem_cons_self a l
    · simp only [argmaxFirst, hrec] at h
      split at h
      · simp only [Option.some.injEq] at h
        subst h
        exact List.mem_cons_self a l
      · simp only [Option.some.injEq] at h
        subst h
        exact List.mem_cons_of_mem a (ih y hrec)

/-- A window pair really is a row of the frame at its position. -/
theorem windowPairsN_mem (bars : List Bar) (s stop p : Nat) (b : Bar)
    (h : (p, b) ∈ windowPairsN bars s stop) : bars[p]? = some b := by
  unfold windowPairsN at h
  rcases List.mem_filterMap.1 h with ⟨q, _, hf⟩
  rcases Option.map_eq_some'.1 hf with ⟨b', hb', heq⟩
  rcases Prod.mk.injEq .. ▸ heq with ⟨h1, h2⟩
  exact h1 ▸ h2 ▸ hb'

/-- The recording invariant of the pivot loop: under a bull trend the
last recorded pivot (if any) is a Low, under a bear trend a High, and
before the first reversal nothing is recorded. -/
def lastHighIs (t : Trend) (log : List Piv) : Prop :=
  match t with
  | .bull => ∀ p ∈ log.getLast?, p.isHigh = false
  | .bear => ∀ p ∈ log.getLast?, p.isHigh = true
  | .nt => log = []

/-- Kind alternation in recording order is preserved by the pivot
loop. -/
theorem pivGo_alternating (bars : List Bar) (mc : Nat) :
    ∀ (fuel i : Nat) (trend : Trend) (rs : Int) (log out : List Piv),
      List.Chain' (fun p q => p.isHigh ≠ q.isHigh) log →
      lastHighIs trend log →
      pivGo bars mc fuel i trend rs log = .ok out →
      List.Chain' (fun p q => p.isHigh ≠ q.isHigh) out := by
  intro fuel
  induction fuel with
  | zero =>
    intro i trend rs log out hch _ h
    rw [pivGo] at h
    cases h
    exact hch
  | succ fuel ih =>
    intro i trend rs log out hch hlast h
    rw [pivGo] at h
    split at h
    case isFalse =>
      cases h
      exact hch
    case isTrue hdim =>
      split at h
      · exact Except.noConfusion h
      · by_cases hbear : trend = .bear
        · rw [if_pos hbear] at h
          rcases hpb : argminFirst (fun pb => pb.2.low) (windowPairs bars rs (i + 1))
            with _ | pb
          · rw [hpb] at h
            exact Except.noConfusion h
          · simp only [hpb] at h
            refine ih _ _ _ _ _ ?_ ?_ h
            · rw [List.chain'_append]
              refine ⟨hch, List.chain'_singleton _, ?_⟩
              intro x hx y hy
              simp only [List.head?_cons, Option.mem_def, Option.some.injEq] at hy
              subst hy
              have hx1 : x.isHigh = true := by
                rw [hbear] at hlast
                exact hlast x hx
              simp [hx1]
            · intro p hp
              rw [List.getLast?_concat] at hp
              simp only [Option.mem_def, Option.some.injEq] at hp
              subst hp
              rfl
        · rw [if_neg hbear] at h
          refine ih _ _ _ _ _ hch ?_ h
          cases trend with
          | nt =>
            simp only [lastHighIs] at hlast
            subst hlast
            intro p hp
            simp at hp
          | bull => exact hlast
          | bear => exact absurd rfl hbear
      · split at h
        · exact Except.noConfusion h
        · by_cases hbull : trend = .bull
          · rw [if_pos hbull] at h
            rcases hpb : argmaxFirst (fun pb => pb.2.high) (windowPairs bars rs (i + 1))
              with _ | pb
            · rw [hpb] at h
              exact Except.noConfusion h
            · simp only [hpb] at h
              refine ih _ _ _ _ _ ?_ ?_ h
              · rw [List.chain'_append]
                refine ⟨hch, List.chain'_singleton _, ?_⟩
                intro x hx y hy
                simp only [List.head?_cons, Option.mem_def, Option.some.injEq] at hy
                subst hy
                have hx1 : x.isHigh = false := by
                  rw [hbull] at hlast
                  exact hlast x hx
                simp [hx1]
              · intro p hp
                rw [List.getLast?_concat] at hp
                simp only [Option.mem_def, Option.some.injEq] at hp
                subst hp
                rfl
          · rw [if_neg hbull] at h
            refine ih _ _ _ _ _ hch ?_ h
            cases trend with
            | nt =>
              simp only [lastHighIs] at hlast
              subst hlast
              intro p hp
              simp at hp
            | bear => exact hlast
            | bull => exact absurd rfl hbull
        · exact ih _ _ _ _ _ hch hlast h

/-- C5 amended: in the order `identify_pivots` records them, consecutive
pivots strictly alternate in kind (a bear-to-bull reversal records a Low,
a bull-to-bear reversal a High). -/
theorem c5_record_order_alternation (bars : List Bar) (mc : Nat) (log : List Piv)
    (h : identify_pivots bars mc = .ok log) :
    List.Chain' (fun p q => p.isHigh ≠ q.isHigh) log :=
  pivGo_alternating bars mc bars.length 1 .nt 0 [] log List.chain'_nil rfl h

/-- Witness for the amended C5 on `demo8`: the recorded sequence Low,
High, Low alternates. -/
theorem c5_record_order_alternation_witness :
    List.Chain' (fun p q => p.isHigh ≠ q.isHigh)
      [(⟨0, false, 3⟩ : Piv), ⟨5, true, 16⟩, ⟨4, false, 2⟩] :=
  c5_record_order_alternation demo8 2 [⟨0, false, 3⟩, ⟨5, true, 16⟩, ⟨4, false, 2⟩] rfl

/-- A recorded pivot sits on a bar of the series and records that bar's
own extreme (its High for a pivot High, its Low for a pivot Low). -/
def pivOnBar (bars : List Bar) (p : Piv) : Prop :=
  ∃ b, bars[p.idx]? = some b ∧ p.value = if p.isHigh = true then b.high else b.low

/-- The pivot loop only records pivots that sit on a bar attaining the
recorded extreme. -/
theorem pivGo_onBar (bars : List Bar) (mc : Nat) :
    ∀ (fuel i : Nat) (trend : Trend) (rs : Int) (log out : List Piv),
      (∀ p ∈ log, pivOnBar bars p) →
      pivGo bars mc fuel i trend rs log = .ok out →
      ∀ p ∈ out, pivOnBar bars p := by
  intro fuel
  induction fuel with
  | zero =>
    intro i trend rs log out hlog h
    rw [pivGo] at h
    cases h
    exact hlog
  | succ fuel ih =>
    intro i trend rs log out hlog h
    rw [pivGo] at h
    split at h
    case isFalse =>
      cases h
      exact hlog
    case isTrue hdim =>
      split at h
      · exact Except.noConfusion h
      · by_cases hbear : trend = .bear
        · rw [if_pos hbear] at h
          rcases hpb : argminFirst (fun pb => pb.2.low) (windowPairs bars rs (i + 1))
            with _ | pb
          · rw [hpb] at h
            exact Except.noConfusion h
          · simp only [hpb] at h
            refine ih _ _ _ _ _ ?_ h
            intro p hp
            rcases List.mem_append.1 hp with hp | hp
            · exact hlog p hp
            · simp only [List.mem_singleton] at hp
              subst hp
              exact ⟨pb.2,
                windowPairsN_mem bars _ _ pb.1 pb.2 (argminFirst_mem _ _ _ hpb),
                by simp⟩
        · rw [if_neg hbear] at h
          exact ih _ _ _ _ _ hlog h
      · split at h
        · exact Except.noConfusion h
        · by_cases hbull : trend = .bull
          · rw [if_pos hbull] at h
            rcases hpb : argmaxFirst (fun pb => pb.2.high) (windowPairs bars rs (i + 1))
              with _ | pb
            · rw [hpb] at h
              exact Except.noConfusion h
            · simp only [hpb] at h
              refine ih _ _ _ _ _ ?_ h
              intro p hp
              rcases List.mem_append.1 hp with hp | hp
              · exact hlog p hp
              · simp only [List.mem_singleton] at hp
                subst hp
                exact ⟨pb.2,
                  windowPairsN_mem bars _ _ pb.1 pb.2 (argmaxFirst_mem _ _ _ hpb),
                  by simp⟩
          · rw [if_neg hbull] at h
            exact ih _ _ _ _ _ hlog h
        · exact ih _ _ _ _ _ hlog h

/-- C10: every pivot recorded by `identify_pivots` has the value of the
extreme of the bar at its own index: the High of that bar for a pivot
High, the Low of that bar for a pivot Low. -/
theorem c10_pivot_on_own_bar (bars : List Bar) (mc : Nat) (log : List Piv)
    (h : identify_pivots bars mc = .ok log) (p : Piv) (hp : p ∈ log) :
    ∃ b, bars[p.idx]? = some b ∧
      p.value = if p.isHigh = true then b.high else b.low :=
  pivGo_onBar bars mc bars.length 1 .nt 0 [] log (by simp) h p hp

/-- Witness for C10 on `demo8`: the pivot Low recorded at row 0 carries
that bar's own Low. -/
theorem c10_pivot_on_own_bar_witness :
    ∃ b, demo8[(⟨0, false, 3⟩ : Piv).idx]? = some b ∧
      (⟨0, false, 3⟩ : Piv).value =
        if (⟨0, false, 3⟩ : Piv).isHigh = true then b.high else b.low :=
  c10_pivot_on_own_bar demo8 2 [⟨0, false, 3⟩, ⟨5, true, 16⟩, ⟨4, false, 2⟩] rfl
    ⟨0, false, 3⟩ (by decide)

/-- The label tails have the length of their input. -/
theorem labGo_length (up dn : String) : ∀ (l : List Int) (v : Int),
    (labGo up dn v l).length = l.length := by
  intro l
  induction l with
  | nil => intro v; rfl
  | cons w l ih => intro v; simp [labGo, ih w]

/-- The High labels list has the length of its input. -/
theorem highLabels_length (l : List Int) : (highLabels l).length = l.length := by
  cases l with
  | nil => rfl
  | cons v vs => simp [highLabels, labGo_length]

/-- The Low labels list has the length of its input. -/
theorem lowLabels_length (l : List Int) : (lowLabels l).length = l.length := by
  cases l with
  | nil => rfl
  | cons v vs => simp [lowLabels, labGo_length]

/-- Unfolding one write of a write sequence. -/
theorem writeAll_cons (a : List String) (p : Nat × String) (ps : List (Nat × String)) :
    writeAll a (p :: ps) = writeAll (a.set p.1 p.2) ps := rfl

/-- Writing labels does not change the column length. -/
theorem writeAll_length (ps : List (Nat × String)) : ∀ a : List String,
    (writeAll a ps).length = a.length := by
  induction ps with
  | nil => intro a; rfl
  | cons p ps ih => intro a; rw [writeAll_cons, ih, List.length_set]

/-- A position no write targets keeps its previous content. -/
theorem writeAll_getElem_of_notMem (ps : List (Nat × String)) :
    ∀ (a : List String) (i : Nat),
      i ∉ ps.map Prod.fst → (writeAll a ps)[i]? = a[i]? := by
  induction ps with
  | nil => intro a i _; rfl
  | cons p ps ih =>
    intro a i hi
    simp only [List.map_cons, List.mem_cons, not_or] at hi
    rw [writeAll_cons, ih _ i hi.2, List.getElem?_set_ne (Ne.symm hi.1)]

/-- When all writes target distinct positions, a written position shows
its written label. -/
theorem writeAll_getElem_of_mem (ps : List (Nat × String)) :
    ∀ (a : List String) (i : Nat) (s : String),
      (ps.map Prod.fst).Nodup → (i, s) ∈ ps → i < a.length →
      (writeAll a ps)[i]? = some s := by
  induction ps with
  | nil => intro a i s _ hm _; simp at hm
  | cons p ps ih =>
    intro a i s hnd hm hlen
    simp only [List.map_cons, List.nodup_cons] at hnd
    rcases List.mem_cons.1 hm with hm | hm
    · subst hm
      rw [writeAll_cons, writeAll_getElem_of_notMem ps _ i (by simpa using hnd.1)]
      exact List.getElem?_set_self hlen
    · rw [writeAll_cons]
      exact ih _ i s hnd.2 hm (by rw [List.length_set]; exact hlen)

/-- The rows selected for one labeling pass are a subsequence of the row
range. -/
theorem pivPairs_fst_sublist (n : Nat) (log : List Piv) (isH : Bool) :
    ((pivPairs n log isH).map Prod.fst).Sublist (List.range n) := by
  unfold pivPairs
  generalize List.range n = l
  induction l with
  | nil => simp
  | cons a l ih =>
    cases hg : pivView log isH a with
    | none => simpa [List.filterMap_cons, hg] using ih.cons a
    | some v => simpa [List.filterMap_cons, hg] using ih.cons₂ a

/-- The rows selected for one labeling pass are pairwise distinct. -/
theorem pivPairs_fst_nodup (n : Nat) (log : List Piv) (isH : Bool) :
    ((pivPairs n log isH).map Prod.fst).Nodup :=
  (pivPairs_fst_sublist n log isH).nodup (List.nodup_range n)

/-- A selected row is in range and holds the pivot value it was selected
for. -/
theorem pivPairs_mem (n : Nat) (log : List Piv) (isH : Bool) (i : Nat) (v : Int)
    (h : (i, v) ∈ pivPairs n log isH) : i < n ∧ pivView log isH i = some v := by
  unfold pivPairs at h
  rcases List.mem_filterMap.1 h with ⟨j, hj, hf⟩
  rcases Option.map_eq_some'.1 hf with ⟨w, hw, heq⟩
  rcases Prod.mk.injEq .. ▸ heq with ⟨h1, h2⟩
  subst h1
  subst h2
  exact ⟨List.mem_range.1 hj, hw⟩

/-- A row selected for one labeling pass carries a pivot of that kind. -/
theorem pivPairs_fst_mem (n : Nat) (log : List Piv) (isH : Bool) (i : Nat)
    (h : i ∈ (pivPairs n log isH).map Prod.fst) :
    ∃ w, pivView log isH i = some w := by
  rcases List.mem_map.1 h with ⟨pr, hpr, hfst⟩
  rcases pr with ⟨j, w⟩
  cases hfst
  exact ⟨w, (pivPairs_mem n log isH j w hpr).2⟩

/-- The write positions of a labeling pass are exactly the selected
rows. -/
theorem labelWrites_fst (ps : List (Nat × Int)) (labs : List Int → List String)
    (hlen : (labs (ps.map Prod.snd)).length = ps.length) :
    (labelWrites ps labs).map Prod.fst = ps.map Prod.fst := by
  unfold labelWrites
  exact List.map_fst_zip _ _ (by rw [hlen, List.length_map])

/-- C6 amended: in the `label` column written by `_add_labels`, every
pivot Low's row shows its `L`/`HL`/`LL` label, and every pivot High's row
shows its `H`/`HH`/`LH` label provided no pivot Low occupies the same row
(the Low labels are written second and overwrite a High label landing on
the same row). -/
theorem c6_labels_amended (n : Nat) (log : List Piv) :
    (∀ (k i : Nat) (v : Int),
        (pivPairs n log false)[k]? = some (i, v) →
        (labelArr n log)[i]? =
          (lowLabels ((pivPairs n log false).map Prod.snd))[k]?) ∧
    (∀ (k i : Nat) (v : Int),
        (pivPairs n log true)[k]? = some (i, v) →
        pivView log false i = none →
        (labelArr n log)[i]? =
          (highLabels ((pivPairs n log true).map Prod.snd))[k]?) := by
  have hlowlen : (lowLabels ((pivPairs n log false).map Prod.snd)).length
      = (pivPairs n log false).length := by
    rw [lowLabels_length, List.length_map]
  have hhighlen : (highLabels ((pivPairs n log true).map Prod.snd)).length
      = (pivPairs n log true).length := by
    rw [highLabels_length, List.length_map]
  constructor
  · intro k i v hk
    have hmem : (i, v) ∈ pivPairs n log false := List.getElem?_mem hk
    have hin := pivPairs_mem n log false i v hmem
    have hklen : k < (pivPairs n log false).length := (List.getElem?_eq_some.1 hk).1
    obtain ⟨lab, hlab⟩ : ∃ lab,
        (lowLabels ((pivPairs n log false).map Prod.snd))[k]? = some lab :=
      ⟨_, List.getElem?_eq_getElem (by rw [hlowlen]; exact hklen)⟩
    have hfst : ((pivPairs n log false).map Prod.fst)[k]? = some i := by
      rw [List.getElem?_map, hk]; rfl
    have hzip : (labelWrites (pivPairs n log false) lowLabels)[k]? = some (i, lab) := by
      unfold labelWrites
      exact List.getElem?_zip_eq_some.2 ⟨hfst, hlab⟩
    have hnodup : ((labelWrites (pivPairs n log false) lowLabels).map Prod.fst).Nodup := by
      rw [labelWrites_fst _ _ hlowlen]
      exact pivPairs_fst_nodup n log false
    unfold labelArr
    rw [writeAll_getElem_of_mem _ _ i _ hnodup (List.getElem?_mem hzip)
      (by rw [writeAll_length, List.length_replicate]; exact hin.1), hlab]
  · intro k i v hk hnone
    have hmem : (i, v) ∈ pivPairs n log true := List.getElem?_mem hk
    have hin := pivPairs_mem n log true i v hmem
    have hklen : k < (pivPairs n log true).length := (List.getElem?_eq_some.1 hk).1
    obtain ⟨lab, hlab⟩ : ∃ lab,
        (highLabels ((pivPairs n log true).map Prod.snd))[k]? = some lab :=
      ⟨_, List.getElem?_eq_getElem (by rw [hhighlen]; exact hklen)⟩
    have hfst : ((pivPairs n log true).map Prod.fst)[k]? = some i := by
      rw [List.getElem?_map, hk]; rfl
    have hzip : (labelWrites (pivPairs n log true) highLabels)[k]? = some (i, lab) := by
      unfold labelWrites
      exact List.getElem?_zip_eq_some.2 ⟨hfst, hlab⟩
    have hnodup : ((labelWrites (pivPairs n log true) highLabels).map Prod.fst).Nodup := by
      rw [labelWrites_fst _ _ hhighlen]
      exact pivPairs_fst_nodup n log true
    have hnotlow : i ∉ (labelWrites (pivPairs n log false) lowLabels).map Prod.fst := by
      rw [labelWrites_fst _ _ hlowlen]
      intro hcon
      rcases pivPairs_fst_mem n log false i hcon with ⟨w, hw⟩
      rw [hnone] at hw
      exact Option.noConfusion hw
    unfold labelArr
    rw [writeAll_getElem_of_notMem _ _ i hnotlow,
      writeAll_getElem_of_mem _ _ i _ hnodup (List.getElem?_mem hzip)
        (by rw [List.length_replicate]; exact hin.1), hlab]

/-- Witness for the amended C6 on `demo8` (no shared row there): the only
pivot High's row shows its `H` label and the first pivot Low's row its
`L` label. -/
theorem c6_labels_amended_witness :
    (labelArr 8 (pivLog demo8 2))[5]? =
        (highLabels ((pivPairs 8 (pivLog demo8 2) true).map Prod.snd))[0]? ∧
      (labelArr 8 (pivLog demo8 2))[0]? =
        (lowLabels ((pivPairs 8 (pivLog demo8 2) false).map Prod.snd))[0]? :=
  ⟨(c6_labels_amended 8 (pivLog demo8 2)).2 0 5 16 rfl rfl,
   (c6_labels_amended 8 (pivLog demo8 2)).1 0 0 3 rfl⟩

/-- The quality contract of one BOS event: `good` exactly when a next
bar exists and its close continues past the broken level in the break
direction. -/
def goodCont (bars : List Bar) (e : BosEv) : Prop :=
  e.good = true ↔ ∃ nb, bars[e.endIdx + 1]? = some nb ∧
    (if e.isBull = true then nb.close > e.level else nb.close < e.level)

/-- An event emitted by the bearish branch satisfies the quality
contract. -/
theorem bearStep_good (bars : List Bar) (i : Nat) (bar : Bar)
    (ph pl : Option (Nat × Int)) (e : BosEv)
    (h : (bearStep bars i bar ph pl).2.2 = some e) : goodCont bars e := by
  unfold bearStep at h
  rcases pl with _ | ⟨k, v⟩
  · simp at h
  · simp only at h
    split at h
    · simp only [Option.some.injEq] at h
      subst h
      unfold goodCont
      simp only
      cases hnb : bars[i + 1]? with
      | some nb => simp [hnb, decide_eq_true_iff]
      | none => simp [hnb]
    · simp at h

/-- An event emitted by the break checks of one bar satisfies the
quality contract. -/
theorem bosStep_good (bars : List Bar) (i : Nat) (bar : Bar)
    (ph pl : Option (Nat × Int)) (e : BosEv)
    (h : (bosStep bars i bar ph pl).2.2 = some e) : goodCont bars e := by
  unfold bosStep at h
  rcases ph with _ | ⟨k, v⟩
  · exact bearStep_good bars i bar none pl e h
  · simp only at h
    split at h
    · simp only [Option.some.injEq] at h
      subst h
      unfold goodCont
      simp only
      cases hnb : bars[i + 1]? with
      | some nb => simp [hnb, decide_eq_true_iff]
      | none => simp [hnb]
    · exact bearStep_good bars i bar (some (k, v)) pl e h

/-- Every event accumulated by the BOS loop satisfies the quality
contract, provided the events accumulated so far do. -/
theorem bosGo_good (bars : List Bar) (pivH pivL : Nat → Option Int) :
    ∀ (fuel i : Nat) (ph pl : Option (Nat × Int)) (acc : List BosEv),
      (∀ e ∈ acc, goodCont bars e) →
      ∀ e ∈ bosGo bars pivH pivL fuel i ph pl acc, goodCont bars e := by
  intro fuel
  induction fuel with
  | zero =>
    intro i ph pl acc hacc e he
    rw [bosGo] at he
    exact hacc e he
  | succ fuel ih =>
    intro i ph pl acc hacc e he
    rw [bosGo] at he
    split at he
    · exact hacc e he
    · refine ih _ _ _ _ (fun e' he' => ?_) e he
      rcases List.mem_append.1 he' with h' | h'
      · exact hacc e' h'
      · rw [Option.mem_toList] at h'
        exact bosStep_good bars i _ _ _ e' h'

/-- C3: every BOSEvent emitted by `find_bos` is graded `good` exactly
when the next bar of the valid series exists and its close strictly
continues past the broken level in the break direction; in particular an
event on the last bar is graded `bad`. -/
theorem c3_bos_quality (bars : List Bar) (pivH pivL : Nat → Option Int)
    (e : BosEv) (he : e ∈ find_bos bars pivH pivL) :
    e.good = true ↔ ∃ nb, bars[e.endIdx + 1]? = some nb ∧
      (if e.isBull = true then nb.close > e.level else nb.close < e.level) :=
  bosGo_good bars pivH pivL bars.length 0 none none [] (by simp) e he

/-- Demo input for the C3 witness: two bars whose first close breaks the
pivot-High level 5 set at row 0. -/
def wbars : List Bar := [⟨5, 7, 4, 6⟩, ⟨6, 8, 5, 7⟩]

/-- Demo pivot-High column for the C3 witness. -/
def wpivH : Nat → Option Int := fun i => if i = 0 then some 5 else none

/-- Demo pivot-Low column for the C3 witness. -/
def wpivL : Nat → Option Int := fun _ => none

/-- Witness for C3: the bullish event at row 0 of the demo input is in
the `find_bos` output and satisfies the quality contract. -/
theorem c3_bos_quality_witness :
    ((⟨0, 0, 5, true, true⟩ : BosEv) ∈ find_bos wbars wpivH wpivL) ∧
      ((⟨0, 0, 5, true, true⟩ : BosEv).good = true ↔
        ∃ nb, wbars[(⟨0, 0, 5, true, true⟩ : BosEv).endIdx + 1]? = some nb ∧
          (if (⟨0, 0, 5, true, true⟩ : BosEv).isBull = true
            then nb.close > (⟨0, 0, 5, true, true⟩ : BosEv).level
            else nb.close < (⟨0, 0, 5, true, true⟩ : BosEv).level)) :=
  ⟨by decide, c3_bos_quality wbars wpivH wpivL ⟨0, 0, 5, true, true⟩ (by decide)⟩

/-- C7: the inside-bar filter is idempotent — refiltering the valid
series it produced keeps every bar and flags zero bars as inside. -/
theorem c7_filter_idempotent (bars : List Bar) :
    filter_inside_bars (filter_inside_bars bars).1 =
      ((filter_inside_bars bars).1,
        List.replicate (filter_inside_bars bars).1.length false) := by
  cases bars with
  | nil => rfl
  | cons b rest =>
    have hchain := filterGo_chainCond rest b.high b.low
    simp only [filter_inside_bars,
      filterGo_of_chainCond (filterGo b.high b.low rest).1 b.high b.low hchain,
      List.length_cons, List.replicate_succ]
